import Mathlib

/-!
Verification of the alnvu alignment-display core (`alnvu/util.py`).

Strings are modelled as `List Char`, Python dicts as insertion-ordered
association lists, Python exceptions as an explicit error type, and the
mutable `Seqobj` object graph (for the frame-condition claim) as an
explicit heap of objects addressed by natural-number references.
-/

namespace Alnvu

/-- Python strings are modelled as lists of characters. -/
abbrev Str := List Char

/-- The Python exceptions that the functions under study can raise. -/
inductive PyErr where
  /-- `ValueError` (bad reference selector, bad `simchar`, `max()` on empty). -/
  | valueError : PyErr
  /-- `AttributeError` (calling `.start()` on a failed `re.search`). -/
  | attributeError : PyErr
  /-- `TypeError` (formatting a string with the `%i` conversion). -/
  | typeError : PyErr
  /-- `KeyError` (missing dictionary key). -/
  | keyError : PyErr
  /-- `IndexError` (indexing an empty list). -/
  | indexError : PyErr
deriving DecidableEq, Repr

/-- ASCII letter test, the behaviour of the pattern `[a-z]` with `re.I`. -/
def pyIsAlpha (c : Char) : Bool :=
  ('a' ≤ c && c ≤ 'z') || ('A' ≤ c && c ≤ 'Z')

/-- ASCII digit test. -/
def pyIsDigit (c : Char) : Bool :=
  '0' ≤ c && c ≤ '9'

/-- The decimal digit characters. -/
def digitChar (d : Nat) : Char :=
  match d with
  | 0 => '0' | 1 => '1' | 2 => '2' | 3 => '3' | 4 => '4'
  | 5 => '5' | 6 => '6' | 7 => '7' | 8 => '8' | _ => '9'

/-- Numeric value of a digit character. -/
def digitVal (c : Char) : Nat := c.toNat - 48

/-- `foldl` step of reading a decimal numeral. -/
def parseNatAux (a : Nat) (cs : Str) : Nat :=
  cs.foldl (fun acc c => 10 * acc + digitVal c) a

/-- Read a decimal numeral (as `int(...)` does on a digit string). -/
def parseNat (cs : Str) : Nat := parseNatAux 0 cs

/-- Fuel-driven decimal printer (`repr` of a nonnegative int); the fuel is
an upper bound used only to make the recursion structural. -/
def pyDecReprAux : Nat → Nat → Str
  | 0, _ => []
  | fuel + 1, n =>
      if n < 10 then [digitChar n]
      else pyDecReprAux fuel (n / 10) ++ [digitChar (n % 10)]

/-- Python `repr` of a natural number: its decimal numeral. -/
def pyDecRepr (n : Nat) : Str := pyDecReprAux (n + 1) n

/-- `'%0<w>i' % n`: zero-pad a numeral on the left to width `w`
(no truncation when it is longer). -/
def padZeros (w : Nat) (s : Str) : Str :=
  List.replicate (w - s.length) '0' ++ s

/-- `'%<w>s' % s`: space-pad on the left to width `w`. -/
def padLeftSp (w : Nat) (s : Str) : Str :=
  List.replicate (w - s.length) ' ' ++ s

/-- `'%-<w>s' % s`: space-pad on the right to width `w`. -/
def padRightSp (w : Nat) (s : Str) : Str :=
  s ++ List.replicate (w - s.length) ' '

section Dict

variable {α β : Type} [DecidableEq α]

/-- Python `d[k]` / `d.get(k)`: first binding of `k` in the
insertion-ordered association list. -/
def dlookup (k : α) : List (α × β) → Option β
  | [] => none
  | (k', v) :: t => if k = k' then some v else dlookup k t

/-- Python `d[k] = v`: overwrite the binding in place, or append it. -/
def dset (k : α) (v : β) : List (α × β) → List (α × β)
  | [] => [(k, v)]
  | (k', v') :: t => if k' = k then (k', v) :: t else (k', v') :: dset k v t

/-- Python `del d[k]` guarded by `except KeyError: pass`:
remove the binding of `k` when present. -/
def ddel (k : α) : List (α × β) → List (α × β)
  | [] => []
  | (k', v') :: t => if k' = k then t else (k', v') :: ddel k t

/-- `dictList[i][c] = dictList[i].get(c, 0) + 1`. -/
def dincr (c : α) (d : List (α × Nat)) : List (α × Nat) :=
  dset c ((dlookup c d).getD 0 + 1) d

end Dict

/-- The `Seqobj` container of `util.py`: a name, a character string and a
`reference` flag (set to `False` by `__init__`). -/
structure Seqobj where
  name : Str
  seq : Str
  reference : Bool
deriving DecidableEq, Repr

instance : Inhabited Seqobj := ⟨Seqobj.mk [] [] false⟩

/-- `int(compare_to)` on a string: optional surrounding blanks, an optional
sign, then at least one digit; `none` models the `ValueError`. -/
def pyParseInt (s : Str) : Option Int :=
  let t := ((s.dropWhile (fun c => c = ' ')).reverse.dropWhile (fun c => c = ' ')).reverse
  match t with
  | [] => none
  | c :: rest =>
      let sign : Int := if c = '-' then -1 else 1
      let ds := if c = '-' || c = '+' then rest else t
      if ds ≠ [] && ds.all pyIsDigit then some (sign * (parseNat ds : Int)) else none

/-- Python list indexing `l[i]` with negative indices counting from the
end; `none` models the `IndexError`. -/
def pyIndex {α : Type} (l : List α) (i : Int) : Option α :=
  if 0 ≤ i then l.get? i.toNat
  else if (-i).toNat ≤ l.length then l.get? (l.length - (-i).toNat)
  else none

/-- Python substring containment `needle in hay` (case-sensitive). -/
def isSubstr (needle hay : Str) : Bool :=
  hay.tails.any (fun t => needle.isPrefixOf t)

/-- `get_seq_from_list` of `util.py`: resolve a reference selector to a
sequence, either as an index (1-based when positive, plain Python index
when zero or negative) or as a substring matching exactly one name. -/
def get_seq_from_list (compare_to : Str) (seqlist : List Seqobj) : Except PyErr Seqobj :=
  let attempt : Option Seqobj :=
    (pyParseInt compare_to).bind (fun ref_ix =>
      if 0 < ref_ix then pyIndex seqlist (ref_ix - 1) else pyIndex seqlist ref_ix)
  match attempt with
  | some s => Except.ok s
  | none =>
      match seqlist.filter (fun seq => isSubstr compare_to seq.name) with
      | [s] => Except.ok s
      | _ => Except.error PyErr.valueError

/-- First index of an ASCII letter, the `re.search(r'[a-z]', s, re.I)`
match position. -/
def findFirstAlpha : Str → Option Nat
  | [] => none
  | c :: t => if pyIsAlpha c then some 0 else (findFirstAlpha t).map (· + 1)

/-- Drop the leading run of non-letters. -/
def dropNonAlpha : Str → Str
  | [] => []
  | c :: t => if pyIsAlpha c then c :: t else dropNonAlpha t

/-- `re.sub(r'[^a-z]+$', '', s, flags=re.I)`: strip the trailing run of
non-letter characters. -/
def rstripNonAlpha (s : Str) : Str :=
  (dropNonAlpha s.reverse).reverse

/-- `get_extent` of `util.py`: the 0-based extent of a sequence string
excluding end gaps.  `none` models the `AttributeError` crash when the
string contains no letter at all (`re.search` returns `None`). -/
def get_extent (seqstr : Str) : Option (Nat × Nat) :=
  match findFirstAlpha seqstr with
  | none => none
  | some start => some (start, (rstripNonAlpha seqstr).length)

/-- `tabulate` of `util.py`: per-column character frequency tables of the
alignment, each sequence being padded (in a local copy) with `'-'` to the
longest length.  The error is the `max()`-of-an-empty-sequence
`ValueError` (the spec's `ValidationError`). -/
def tabulate (seqList : List Seqobj) : Except PyErr (List (List (Char × Nat))) :=
  match seqList with
  | [] => Except.error PyErr.valueError
  | _ =>
      let maxLength := (seqList.map (fun s => s.seq.length)).foldl max 0
      Except.ok (seqList.foldl
        (fun dictList seq =>
          List.zipWith (fun d c => dincr c d) dictList
            (seq.seq ++ List.replicate (maxLength - seq.seq.length) '-'))
        (List.replicate maxLength []))

/-- The common part of `consensus` after the optional gap removal:
the singleton shortcut, the reversed-`sorted` ranking and the
tie-margin rule.  `none` models the crash of `majority, second = vals[:2]`
when fewer than two values remain. -/
def consensusCore (tabdict : List (Char × Nat)) (plu : Nat) (errorchar : Char) : Option Char :=
  if tabdict.length = 1 then (tabdict.head?).map Prod.fst
  else
    let rdict : List (Nat × Char) :=
      tabdict.foldl (fun m kv => dset kv.2 kv.1 m) []
    let vals := (List.insertionSort (fun a b => a ≤ b) (tabdict.map Prod.snd)).reverse
    match vals with
    | majority :: second :: _ =>
        if majority - second < plu then some errorchar else dlookup majority rdict
    | _ => none

/-- `consensus` of `util.py`: the consensus character of one column
frequency table under the tie-margin (`plu`) rule. -/
def consensus (tabdict : List (Char × Nat)) (countGaps : Bool) (plu : Nat)
    (gap : Char) (errorchar : Char) : Option Char :=
  if countGaps then consensusCore tabdict plu errorchar
  else
    let tabdict := ddel gap tabdict
    if tabdict.length = 0 then some errorchar
    else consensusCore tabdict plu errorchar

/-- `count_subs` of `util.py`: number of characters of the column that
differ from the most frequent one. -/
def count_subs (tabdict : List (Char × Nat)) (countGaps : Bool) (gap : Char) : Nat :=
  let tabdict := if countGaps then tabdict else ddel gap tabdict
  if tabdict.length ≤ 1 then 0
  else
    let vals := List.insertionSort (fun a b => a ≤ b) (tabdict.map Prod.snd)
    let total := vals.foldl (· + ·) 0
    let majority_char_count := vals.getLastD 0
    total - majority_char_count

/-- `seqdiff` of `util.py`: compare a sequence with a template.  With a
one-character `simchar`, both are upper-cased and matching non-gap
positions are replaced by `simchar`; with an empty `simchar`, both are
lower-cased and matching positions are upper-cased.  The error is the
`ValueError` raised for a multi-character `simchar`. -/
def seqdiff (seq templateseq : Str) (simchar : Str) : Except PyErr Str :=
  if simchar ≠ [] && 1 < simchar.length then Except.error PyErr.valueError
  else if h : simchar ≠ [] then
    let sim := simchar.head (by simpa using h)
    let seqstr := seq.map Char.toUpper
    let templatestr := templateseq.map Char.toUpper
    Except.ok ((List.zip seqstr templatestr).map
      (fun st => if st.1 = st.2 && st.1 ≠ '-' then sim else st.1))
  else
    let seqstr := seq.map Char.toLower
    let templatestr := templateseq.map Char.toLower
    Except.ok ((List.zip seqstr templatestr).map
      (fun st => if st.1 = st.2 then st.1.toUpper else st.1))

/-- The numbering loop of `get_vnumbers`: one fixed-width numeral (or gap
filler) per column, the counter advancing only on numbered columns. -/
def vnumberCells (ignore_gaps : Bool) (fmt : Nat → Str) (gapstr : Str) (seqstr : Str) : List Str :=
  (seqstr.foldl
    (fun (acc : List Str × Nat) c =>
      if ignore_gaps = false && c = '-' then (acc.1 ++ [gapstr], acc.2)
      else (acc.1 ++ [fmt acc.2], acc.2 + 1))
    ([], 1)).1

/-- `get_vnumbers` of `util.py`: the vertical numbering ruler, one string
per decimal digit position (most significant first). -/
def get_vnumbers (seqstr : Str) (ignore_gaps : Bool) (leadingZeros : Bool) : List Str :=
  let seqlen := seqstr.length
  let digs := (pyDecRepr (seqlen + 1)).length
  let fmt : Nat → Str := fun i =>
    if leadingZeros then padZeros digs (pyDecRepr i) else padLeftSp digs (pyDecRepr i)
  let gapstr := List.replicate digs '-'
  let numchars := vnumberCells ignore_gaps fmt gapstr seqstr
  (List.range digs).map (fun n => numchars.map (fun x => x.getD n ' '))

/-! ### The object heap

Python `Seqobj` instances are mutable objects; `reformat` receives
references to the caller's objects and must not write through them.  The
heap is a list of objects addressed by allocation order. -/

/-- The store of allocated `Seqobj` objects. -/
abbrev Heap := List Seqobj

/-- Dereference (reads of dangling references yield a default object;
the program never creates such references). -/
def heapGet (h : Heap) (r : Nat) : Seqobj := h.getD r default

/-- Allocate a fresh object, returning the new heap and its reference. -/
def alloc (h : Heap) (o : Seqobj) : Heap × Nat := (h ++ [o], h.length)

/-- Line 103 of `util.py`: `[Seqobj(seq.name, seq.seq) for seq in seqs]`,
a fresh copy of every input record, allocated left to right. -/
def copyPhase (h : Heap) : List Nat → Heap × List Nat
  | [] => (h, [])
  | r :: rest =>
      let o := heapGet h r
      let hn := alloc h (Seqobj.mk o.name o.seq false)
      let tail := copyPhase hn.1 rest
      (tail.1, hn.2 :: tail.2)

/-- The `'==REF==> '` marker prefixed to the reference sequence's name. -/
def refMark : Str := "==REF==> ".toList

/-- The comparison loop of `reformat` (lines 130-135): rename and flag
the reference sequence, rewrite every other sequence through `seqdiff`.
The loop stops at the first raised exception, as Python does. -/
def comparePhase (compare_to_name compare_to_str simchar : Str) :
    List Nat → Heap → Heap × Except PyErr Unit
  | [], h => (h, Except.ok ())
  | r :: rest, h =>
      let o := heapGet h r
      if o.name = compare_to_name then
        comparePhase compare_to_name compare_to_str simchar rest
          (h.set r (Seqobj.mk (refMark ++ o.name) o.seq true))
      else
        match seqdiff o.seq compare_to_str simchar with
        | Except.error e => (h, Except.error e)
        | Except.ok d =>
            comparePhase compare_to_name compare_to_str simchar rest
              (h.set r (Seqobj.mk o.name d o.reference))

/-- `apply_mask` of `reformat`: keep the characters at mask-true columns. -/
def apply_mask (mask : List Bool) (instr : Str) : Str :=
  (List.zip instr mask).filterMap (fun cm => if cm.2 then some cm.1 else none)

/-- The masking loop of `reformat` (lines 162-163): overwrite every
sequence with its masked characters. -/
def maskPhase (mask : List Bool) (refs : List Nat) (h : Heap) : Heap :=
  refs.foldl
    (fun h r =>
      let o := heapGet h r
      h.set r (Seqobj.mk o.name (apply_mask mask o.seq) o.reference))
    h

/-- Lines 120-128 of `reformat`: resolve the comparison reference to its
name and character string — the consensus when `compare_to` is `None`,
otherwise the record selected by `get_seq_from_list`; `none` when
`compare` is off. -/
def resolve_compare (compare : Bool) (compare_to : Option Str)
    (consensus_name consensus_str : Str) (objs : List Seqobj) :
    Except PyErr (Option (Str × Str)) :=
  if compare then
    match compare_to with
    | none => Except.ok (some (consensus_name, consensus_str))
    | some ct =>
        match get_seq_from_list ct objs with
        | Except.error e => Except.error e
        | Except.ok s => Except.ok (some (s.name, s.seq))
  else Except.ok none

/-- Lines 138-145 of `reformat`: the range/trim part of the mask — the
explicit 1-based `seqrange` window, else the extent of the `trim_to`
record (an empty truthiness-false `trim_to` string disables the trim),
else all-true. -/
def compute_initial_mask (ii : List Nat) (seqrange : Option (Int × Int))
    (trim_to : Option Str) (objs : List Seqobj) : Except PyErr (List Bool) :=
  match seqrange with
  | some se =>
      Except.ok (ii.map (fun i => decide (se.1 ≤ (i : Int) + 1 ∧ (i : Int) + 1 ≤ se.2)))
  | none =>
      match trim_to with
      | some tt =>
          if tt = [] then Except.ok (ii.map (fun _ => true))
          else
            match get_seq_from_list tt objs with
            | Except.error e => Except.error e
            | Except.ok s =>
                match get_extent s.seq with
                | none => Except.error PyErr.attributeError
                | some ext =>
                    Except.ok (ii.map (fun i => decide (ext.1 ≤ i ∧ i < ext.2)))
      | none => Except.ok (ii.map (fun _ => true))

/-- Lines 104-165 of `reformat` over the explicit heap: everything after
the initial copying, starting from the heap `h1` and the references
`seqlist0` of the copies. -/
def reformat_rest (h1 : Heap) (seqlist0 : List Nat)
    (add_consensus compare : Bool) (compare_to : Option Str)
    (exclude_gapcols exclude_invariant : Bool) (min_subs : Nat)
    (simchar : Str) (countGaps : Bool) (seqrange : Option (Int × Int))
    (trim_to : Option Str) (reference_top : Bool) :
    Heap × Except PyErr (List Nat × List Str × List Bool) :=
  let nseqs := seqlist0.length
  match tabulate (seqlist0.map (heapGet h1)) with
  | Except.error e => (h1, Except.error e)
  | Except.ok tabulated =>
  match tabulated.mapM (fun d => consensus d countGaps 2 '-' 'X') with
  | none => (h1, Except.error PyErr.valueError)
  | some cs =>
  let consensus_str := cs.map Char.toUpper
  let consensus_name : Str := "CONSENSUS".toList
  let step1 :=
    if add_consensus then
      let an := alloc h1 (Seqobj.mk consensus_name consensus_str false)
      (an.1, if reference_top then an.2 :: seqlist0 else seqlist0 ++ [an.2])
    else (h1, seqlist0)
  let h2 := step1.1
  let seqlist := step1.2
  match resolve_compare compare compare_to consensus_name consensus_str
      (seqlist.map (heapGet h2)) with
  | Except.error e => (h2, Except.error e)
  | Except.ok cmpInfo =>
  let step2 :=
    match cmpInfo with
    | none => (h2, Except.ok ())
    | some nc => comparePhase nc.1 nc.2 simchar seqlist h2
  let h3 := step2.1
  match step2.2 with
  | Except.error e => (h3, Except.error e)
  | Except.ok _ =>
  match seqlist with
  | [] => (h3, Except.error PyErr.indexError)
  | r0 :: _ =>
  let ii := List.range (heapGet h3 r0).seq.length
  match compute_initial_mask ii seqrange trim_to (seqlist.map (heapGet h3)) with
  | Except.error e => (h3, Except.error e)
  | Except.ok maskA =>
  let maskB :=
    if exclude_gapcols then
      List.zipWith (fun m m1 => m && m1) maskA
        (tabulated.map (fun d => decide ((dlookup '-' d).getD 0 ≠ nseqs)))
    else maskA
  let maskC :=
    if exclude_invariant then
      List.zipWith (fun m m1 => m && m1) maskB
        (tabulated.map (fun d => decide (min_subs ≤ count_subs d countGaps '-')))
    else maskB
  let vnumstrs := (get_vnumbers consensus_str true true).map (fun s => apply_mask maskC s)
  let h4 :=
    if seqrange.isSome || exclude_invariant || exclude_gapcols then
      maskPhase maskC seqlist h3
    else h3
  (h4, Except.ok (seqlist, vnumstrs, maskC))

/-- `reformat` of `util.py` over the explicit heap: takes references to
the caller's records and returns (with the final heap) the references of
the display records, the masked ruler strings and the column mask.  The
heap is returned on the error paths too, exactly as a raised Python
exception leaves the object store behind. -/
def reformat_heap (h0 : Heap) (seqRefs : List Nat)
    (add_consensus compare : Bool) (compare_to : Option Str)
    (exclude_gapcols exclude_invariant : Bool) (min_subs : Nat)
    (simchar : Str) (countGaps : Bool) (seqrange : Option (Int × Int))
    (trim_to : Option Str) (reference_top : Bool) :
    Heap × Except PyErr (List Nat × List Str × List Bool) :=
  let cp := copyPhase h0 seqRefs
  reformat_rest cp.1 cp.2 add_consensus compare compare_to exclude_gapcols
    exclude_invariant min_subs simchar countGaps seqrange trim_to reference_top

/-- `reformat` as the caller observes it: run `reformat_heap` on a heap
holding exactly the input records and read the returned references back. -/
def reformat (seqs : List Seqobj)
    (add_consensus compare : Bool) (compare_to : Option Str)
    (exclude_gapcols exclude_invariant : Bool) (min_subs : Nat)
    (simchar : Str) (countGaps : Bool) (seqrange : Option (Int × Int))
    (trim_to : Option Str) (reference_top : Bool) :
    Except PyErr (List Seqobj × List Str × List Bool) :=
  match reformat_heap seqs (List.range seqs.length) add_consensus compare compare_to
      exclude_gapcols exclude_invariant min_subs simchar countGaps seqrange
      trim_to reference_top with
  | (_, Except.error e) => Except.error e
  | (h, Except.ok out) => Except.ok ((out.1.map (heapGet h)), out.2.1, out.2.2)

/-! ### Pagination -/

/-- A loop that builds a list of results, stopping at the first raised
exception (the effect of a Python `for` loop that appends). -/
def mapE {α β : Type} (f : α → Except PyErr β) : List α → Except PyErr (List β)
  | [] => Except.ok []
  | a :: t =>
      match f a with
      | Except.error e => Except.error e
      | Except.ok b =>
          match mapE f t with
          | Except.error e => Except.error e
          | Except.ok bs => Except.ok (b :: bs)

/-- `xrange(start, stop, step)` for a positive step. -/
def xrange3 (start stop step : Nat) : List Nat :=
  (List.range ((stop - start + step - 1) / step)).map (fun k => start + k * step)

/-- The column blocks of `pagify`: each loop start paired with its
`stop = min(start + ncol, colstop)`. -/
def col_blocks (colstop ncol : Nat) : List (Nat × Nat) :=
  (xrange3 0 colstop ncol).map (fun s => (s, min (s + ncol) colstop))

/-- The status line of a row block: nonempty exactly when the record
count exceeds `nrow`. -/
def status_msg (seqcount nrow first last : Nat) : Str :=
  if nrow < seqcount then
    "sequences ".toList ++ pyDecRepr (first + 1) ++ " to ".toList ++
      pyDecRepr last ++ " of ".toList ++ pyDecRepr seqcount
  else []

/-- Python slicing `s[start:stop]` for 0 ≤ start ≤ stop. -/
def pySlice (s : Str) (start stop : Nat) : Str :=
  (s.drop start).take (stop - start)

/-- One output line of `pagify` through the format string
`'%(count)<num_width>is %(name)<name_width>s %(seqstr)-<ncol>s'` (the
count field only when `seqnums` is set; formatting the ruler's empty
count with the `%i` conversion is Python's `TypeError`). -/
def fmt_line (seqnums : Bool) (num_width : Nat) (count : Option Nat)
    (name_width : Nat) (name : Str) (ncol : Nat) (seqstr : Str) : Except PyErr Str :=
  let base := padLeftSp name_width name ++ [' '] ++ padRightSp ncol seqstr
  if seqnums then
    match count with
    | some n => Except.ok (padLeftSp num_width (pyDecRepr n) ++ ['s', ' '] ++ base)
    | none => Except.error PyErr.typeError
  else Except.ok base

/-- One row-block × column-block tile of `pagify`: optional status line,
ruler lines (or the compact start/stop label), then one line per record
of the row block. -/
def page_block (seqlist : List Seqobj) (vnumstrs : List Str)
    (name_width num_width nrow ncol : Nat) (all_numstrs seqnums : Bool)
    (start stop first : Nat) : Except PyErr (List Str) :=
  let seqcount := seqlist.length
  let last := min (first + nrow) seqcount
  let msg := status_msg seqcount nrow first last
  let msgLines := if msg = [] then ([] : List Str) else [msg]
  let this_seqlist := (seqlist.drop first).take (last - first)
  let rulerE : Except PyErr (List Str) :=
    if all_numstrs then
      mapE (fun s =>
        fmt_line seqnums num_width none name_width ['#'] ncol (pySlice s start stop)) vnumstrs
    else
      let half_ncol := (stop - start) / 2
      Except.ok [List.replicate name_width ' ' ++ [' '] ++
        padRightSp half_ncol (pyDecRepr (start + 1)) ++
        padLeftSp half_ncol (pyDecRepr stop) ++ ['\n']]
  match rulerE with
  | Except.error e => Except.error e
  | Except.ok rulerLines =>
      match mapE (fun ka =>
          fmt_line seqnums num_width (some (first + ka.1 + 1)) name_width
            (ka.2.name.take name_width) ncol (pySlice ka.2.seq start stop)) this_seqlist.enum with
      | Except.error e => Except.error e
      | Except.ok seqLines => Except.ok (msgLines ++ rulerLines ++ seqLines)

/-- `pagify` of `util.py`: tile the formatted records into blocks of
`nrow` rows by `ncol` columns.  The first error is the `max()` of an
empty list; a zero `nrow`/`ncol` is `xrange`'s zero-step `ValueError`. -/
def pagify (seqlist : List Seqobj) (vnumstrs : List Str)
    (name_min name_max nrow ncol : Nat) (all_numstrs seqnums : Bool) :
    Except PyErr (List (List Str)) :=
  match seqlist with
  | [] => Except.error PyErr.valueError
  | s0 :: _ =>
      if nrow = 0 || ncol = 0 then Except.error PyErr.valueError
      else
        let seqcount := seqlist.length
        let longest_name := (seqlist.map (fun s => s.name.length)).foldl max 0
        let name_width := max name_min (min longest_name name_max)
        let num_width := Nat.log 10 seqcount + 1
        let colstop := s0.seq.length
        match mapE (fun sb =>
            mapE (fun first =>
              page_block seqlist vnumstrs name_width num_width nrow ncol
                all_numstrs seqnums sb.1 sb.2 first) (xrange3 0 seqcount nrow))
            (col_blocks colstop ncol) with
        | Except.error e => Except.error e
        | Except.ok blocks => Except.ok blocks.flatten

/-! ### Association-list (Python dict) lemmas -/

theorem dlookup_dset {α β : Type} [DecidableEq α] (k k' : α) (v : β) (l : List (α × β)) :
    dlookup k' (dset k v l) = if k' = k then some v else dlookup k' l := by
  induction l with
  | nil => by_cases h : k' = k <;> simp [dset, dlookup, h]
  | cons a t ih =>
      obtain ⟨a1, a2⟩ := a
      by_cases h1 : a1 = k
      · subst h1
        by_cases h2 : k' = a1 <;> simp [dset, dlookup, h2]
      · by_cases h2 : k' = a1
        · subst h2
          simp [dset, dlookup, h1, Ne.symm h1]
        · simp [dset, dlookup, h1, h2, ih]

theorem dlookup_of_mem_nodup {α β : Type} [DecidableEq α] {k : α} {v : β} {l : List (α × β)}
    (hnd : (l.map Prod.fst).Nodup) (hm : (k, v) ∈ l) : dlookup k l = some v := by
  induction l with
  | nil => cases hm
  | cons a t ih =>
      obtain ⟨a1, a2⟩ := a
      simp only [List.map_cons, List.nodup_cons] at hnd
      rcases List.mem_cons.mp hm with h | h
      · cases h
        simp [dlookup]
      · have hk : k ≠ a1 := by
          intro hk
          subst hk
          exact hnd.1 (List.mem_map.mpr ⟨(k, v), h, rfl⟩)
        simp [dlookup, hk, ih hnd.2 h]

theorem rdict_lookup_notmem {α β : Type} [DecidableEq β] {v : β} :
    ∀ (l : List (α × β)) (m0 : List (β × α)), v ∉ l.map Prod.snd →
      dlookup v (List.foldl (fun m kv => dset kv.2 kv.1 m) m0 l) = dlookup v m0 := by
  intro l
  induction l with
  | nil => intro m0 _; rfl
  | cons a t ih =>
      intro m0 hv
      simp only [List.map_cons, List.mem_cons, not_or] at hv
      simp only [List.foldl_cons]
      rw [ih _ hv.2, dlookup_dset, if_neg hv.1]

theorem rdict_lookup_mem {α β : Type} [DecidableEq β] {v : β} :
    ∀ (l : List (α × β)) (m0 : List (β × α)), v ∈ l.map Prod.snd →
      ∃ k, (k, v) ∈ l ∧
        dlookup v (List.foldl (fun m kv => dset kv.2 kv.1 m) m0 l) = some k := by
  intro l
  induction l with
  | nil => intro m0 hv; cases hv
  | cons a t ih =>
      intro m0 hv
      by_cases hvt : v ∈ t.map Prod.snd
      · obtain ⟨k, hk1, hk2⟩ := ih (dset a.2 a.1 m0) hvt
        exact ⟨k, List.mem_cons_of_mem _ hk1, hk2⟩
      · have hva : v = a.2 := by
          simp only [List.map_cons, List.mem_cons] at hv
          tauto
        refine ⟨a.1, ?_, ?_⟩
        · subst hva
          exact List.mem_cons_self _ _
        · simp only [List.foldl_cons]
          rw [rdict_lookup_notmem t _ hvt, hva, dlookup_dset, if_pos rfl]

/-! ### Lemmas about the reversed `sorted` ranking of `consensus` -/

theorem vals_desc_sorted (l : List Nat) :
    List.Pairwise (fun a b => b ≤ a) (List.insertionSort (fun a b => a ≤ b) l).reverse := by
  rw [List.pairwise_reverse]
  exact List.sorted_insertionSort _ l

theorem vals_desc_length (l : List Nat) :
    (List.insertionSort (fun a b => a ≤ b) l).reverse.length = l.length := by
  simp [List.length_insertionSort]

theorem vals_desc_mem (l : List Nat) (x : Nat) :
    x ∈ (List.insertionSort (fun a b => a ≤ b) l).reverse ↔ x ∈ l := by
  rw [List.mem_reverse]
  exact (List.perm_insertionSort _ l).mem_iff

/-- `consensusCore` on a table whose descending count list starts with
`maj, m2`: the singleton shortcut does not fire and the result is decided
by the tie-margin test. -/
theorem consensusCore_eq_of_vals (d' : List (Char × Nat)) (plu : Nat) (ec : Char)
    (maj m2 : Nat) (rest : List Nat)
    (hvals : (List.insertionSort (fun a b => a ≤ b) (d'.map Prod.snd)).reverse
      = maj :: m2 :: rest) :
    consensusCore d' plu ec =
      if maj - m2 < plu then some ec
      else dlookup maj (List.foldl (fun m kv => dset kv.2 kv.1 m) [] d') := by
  have hlen : d'.length = rest.length + 2 := by
    have h := congrArg List.length hvals
    simp only [vals_desc_length, List.length_map, List.length_cons] at h
    omega
  unfold consensusCore
  rw [if_neg (by omega)]
  simp only [hvals]

/-- C5: for every column frequency table, when gap exclusion
(`countGaps = false`) empties the table `consensus` returns `errorchar`,
and whenever exactly one distinct character remains after the optional
gap exclusion `consensus` returns that character unconditionally —
whatever the tie margin, and even when the remaining character is the gap
itself under `countGaps = true`. -/
theorem consensus_degenerate (d : List (Char × Nat)) (countGaps : Bool) (plu : Nat)
    (gap errorchar : Char) :
    (countGaps = false → ddel gap d = [] →
      consensus d countGaps plu gap errorchar = some errorchar) ∧
    (∀ c n, (if countGaps then d else ddel gap d) = [(c, n)] →
      consensus d countGaps plu gap errorchar = some c) := by
  constructor
  · intro hcg hdel
    subst hcg
    simp [consensus, hdel]
  · intro c n hone
    cases countGaps with
    | false =>
        simp only [Bool.false_eq_true, if_false] at hone
        simp [consensus, hone, consensusCore]
    | true =>
        simp only [if_true] at hone
        simp [consensus, hone, consensusCore]

/-- Witness for C5: an all-gap column is the error marker under gap
exclusion; a pure gap column with `countGaps` is the gap; a column whose
only non-gap character is `A` is `A` even with a huge tie margin. -/
theorem consensus_degenerate_witness :
    consensus [('-', 5)] false 2 '-' 'X' = some 'X' ∧
    consensus [('-', 5)] true 2 '-' 'X' = some '-' ∧
    consensus [('A', 2), ('-', 1)] false 99 '-' 'X' = some 'A' :=
  ⟨(consensus_degenerate [('-', 5)] false 2 '-' 'X').1 rfl (by decide),
   (consensus_degenerate [('-', 5)] true 2 '-' 'X').2 '-' 5 (by decide),
   (consensus_degenerate [('A', 2), ('-', 1)] false 99 '-' 'X').2 'A' 2 (by decide)⟩

/-- C3 counterexample: on the table X:5, G:3 with tie margin 2 the top
two counts differ by 2, which is not less than the margin, yet
`consensus` returns the error-marker character `X` — because the
majority character happens to be the marker itself.  So "returns the
error marker exactly when the top two counts differ by less than the
margin" is false as stated. -/
theorem consensus_tie_margin_cex :
    consensus [('X', 5), ('G', 3)] false 2 '-' 'X' = some 'X' ∧ ¬ (5 - 3 < 2) := by
  exact ⟨by decide, by decide⟩

/-- C3 (amended): provided the error marker is not itself one of the
characters remaining after the optional gap exclusion, `consensus`
returns the marker exactly when the two largest counts differ by less
than the tie margin, and otherwise returns a character attaining the
maximal count; in particular the table A:5, G:4 with margin 2 yields the
marker and A:5, G:3 yields A. -/
theorem consensus_tie_margin :
    (∀ (d : List (Char × Nat)) (countGaps : Bool) (plu : Nat) (gap errorchar : Char)
        (maj m2 : Nat) (rest : List Nat),
      ((if countGaps then d else ddel gap d).map Prod.fst).Nodup →
      errorchar ∉ (if countGaps then d else ddel gap d).map Prod.fst →
      (List.insertionSort (fun a b => a ≤ b)
          ((if countGaps then d else ddel gap d).map Prod.snd)).reverse = maj :: m2 :: rest →
      ((consensus d countGaps plu gap errorchar = some errorchar ↔ maj - m2 < plu) ∧
       (plu ≤ maj - m2 →
         ∃ c, consensus d countGaps plu gap errorchar = some c ∧
           dlookup c (if countGaps then d else ddel gap d) = some maj ∧
           ∀ v ∈ (if countGaps then d else ddel gap d).map Prod.snd, v ≤ maj))) ∧
    consensus [('A', 5), ('G', 4)] false 2 '-' 'X' = some 'X' ∧
    consensus [('A', 5), ('G', 3)] false 2 '-' 'X' = some 'A' := by
  refine ⟨?_, by decide, by decide⟩
  intro d countGaps plu gap ec maj m2 rest hnd hec hvals
  set d' := if countGaps then d else ddel gap d with hd'
  have hlen : d'.length = rest.length + 2 := by
    have h := congrArg List.length hvals
    simp only [vals_desc_length, List.length_map, List.length_cons] at h
    omega
  have hcons : consensus d countGaps plu gap ec = consensusCore d' plu ec := by
    cases countGaps with
    | true =>
        simp only [if_true] at hd'
        simp [consensus, hd']
    | false =>
        simp only [Bool.false_eq_true, if_false] at hd'
        have hne : (ddel gap d).length ≠ 0 := by rw [← hd']; omega
        simp [consensus, hne, hd']
  rw [hcons, consensusCore_eq_of_vals d' plu ec maj m2 rest hvals]
  by_cases hmarg : maj - m2 < plu
  · rw [if_pos hmarg]
    exact ⟨by simp [hmarg], fun h => absurd hmarg (by omega)⟩
  · rw [if_neg hmarg]
    have hmaj_mem : maj ∈ d'.map Prod.snd := by
      have hm : maj ∈ (List.insertionSort (fun a b => a ≤ b) (d'.map Prod.snd)).reverse := by
        rw [hvals]
        exact List.mem_cons_self _ _
      exact (vals_desc_mem _ _).mp hm
    obtain ⟨c, hc_mem, hc_look⟩ := rdict_lookup_mem d' [] hmaj_mem
    rw [hc_look]
    have hcne : c ≠ ec := by
      intro h
      subst h
      exact hec (List.mem_map.mpr ⟨(c, maj), hc_mem, rfl⟩)
    constructor
    · constructor
      · intro h
        exact absurd (Option.some.inj h) hcne
      · intro h
        exact absurd h hmarg
    · intro _
      refine ⟨c, rfl, dlookup_of_mem_nodup hnd hc_mem, ?_⟩
      intro v hv
      have hv' : v ∈ (List.insertionSort (fun a b => a ≤ b) (d'.map Prod.snd)).reverse :=
        (vals_desc_mem _ _).mpr hv
      rw [hvals] at hv'
      rcases List.mem_cons.mp hv' with h | h
      · omega
      · have hpw := vals_desc_sorted (d'.map Prod.snd)
        rw [hvals] at hpw
        exact (List.pairwise_cons.mp hpw).1 v h

/-- Witness for C3: the amended rule applied to the table A:5, G:4 with
margin 2 produces the error marker. -/
theorem consensus_tie_margin_witness :
    consensus [('A', 5), ('G', 4)] false 2 '-' 'X' = some 'X' :=
  ((consensus_tie_margin.1 [('A', 5), ('G', 4)] false 2 '-' 'X' 5 4 []
    (by decide) (by decide) (by decide)).1).mpr (by decide)

/-! ### Character and list access lemmas for `seqdiff` -/

theorem toNat_ofNat_valid (n : Nat) (h : n < 55296) : (Char.ofNat n).toNat = n := by
  have hv : n.isValidChar := Or.inl h
  simp only [Char.ofNat, dif_pos hv, Char.ofNatAux, Char.toNat]
  simp [UInt32.toNat, BitVec.toNat_ofNat]

theorem toUpper_ne_dash {c : Char} (h : c ≠ '-') : c.toUpper ≠ '-' := by
  intro hu
  apply h
  unfold Char.toUpper at hu
  simp only [] at hu
  by_cases hc : c.toNat ≥ 97 ∧ c.toNat ≤ 122
  · rw [if_pos hc] at hu
    exfalso
    have h1 := congrArg Char.toNat hu
    rw [toNat_ofNat_valid (c.toNat - 32) (by omega)] at h1
    have h2 : ('-' : Char).toNat = 45 := by decide
    omega
  · rwa [if_neg hc] at hu

theorem getD_map_lt {α β : Type} (g : α → β) (d : β) (d' : α) :
    ∀ (l : List α) (i : Nat), i < l.length → (l.map g).getD i d = g (l.getD i d') := by
  intro l
  induction l with
  | nil => intro i hi; cases hi
  | cons x t ih =>
      intro i hi
      cases i with
      | zero => rfl
      | succ j =>
          simp only [List.map_cons, List.getD_cons_succ]
          exact ih j (by simpa using hi)

theorem zip_map_getD (f : Char × Char → Char) (d : Char) :
    ∀ (a b : Str) (i : Nat), i < min a.length b.length →
      ((List.zip a b).map f).getD i d = f (a.getD i d, b.getD i d) := by
  intro a
  induction a with
  | nil => intro b i hi; simp at hi
  | cons x a' ih =>
      intro b i hi
      cases b with
      | nil => simp at hi
      | cons y b' =>
          cases i with
          | zero => rfl
          | succ j =>
              simp only [List.zip_cons_cons, List.map_cons, List.getD_cons_succ]
              exact ih b' j (by simp at hi; omega)

/-- C6 counterexample: diffing the record "." against the reference "A"
with `simchar = '.'` yields ".", whose single position holds the
similarity character even though the uppercased characters differ — so
"a position holds simChar exactly when the characters match" is false as
stated (a non-matching record character equal to the marker survives). -/
theorem seqdiff_cex :
    seqdiff ['.'] ['A'] ['.'] = Except.ok ['.'] ∧
    ¬ (Char.toUpper '.' = Char.toUpper 'A' ∧ Char.toUpper '.' ≠ '-') := by
  exact ⟨rfl, by decide⟩

/-- C6 (amended): with a one-character `simchar`, `seqdiff` succeeds with
a string of length `min |seq| |template|` whose position `i` holds the
similarity character when the uppercased characters match away from a
gap, and otherwise holds the uppercased record character (which may
coincide with the marker); a `simchar` of length above one is a
`ValueError`; and diffing a record against itself marks every non-gap
position. -/
theorem seqdiff_spec :
    (∀ (s t : Str) (c : Char) (r : Str), seqdiff s t [c] = Except.ok r →
      r.length = min s.length t.length ∧
      ∀ i, i < r.length →
        r.getD i ' ' =
          (if (s.getD i ' ').toUpper = (t.getD i ' ').toUpper ∧ (s.getD i ' ').toUpper ≠ '-'
           then c else (s.getD i ' ').toUpper)) ∧
    (∀ (s t : Str) (c : Char), (seqdiff s t [c]).isOk) ∧
    (∀ (s t sim : Str), 1 < sim.length → seqdiff s t sim = Except.error PyErr.valueError) ∧
    (∀ (s : Str) (c : Char) (r : Str), seqdiff s s [c] = Except.ok r →
      ∀ i, i < r.length → s.getD i ' ' ≠ '-' → r.getD i ' ' = c) := by
  have hmain : ∀ (s t : Str) (c : Char) (r : Str), seqdiff s t [c] = Except.ok r →
      r.length = min s.length t.length ∧
      ∀ i, i < r.length →
        r.getD i ' ' =
          (if (s.getD i ' ').toUpper = (t.getD i ' ').toUpper ∧ (s.getD i ' ').toUpper ≠ '-'
           then c else (s.getD i ' ').toUpper) := by
    intro s t c r hr
    have hdef : seqdiff s t [c] = Except.ok ((List.zip (s.map Char.toUpper) (t.map Char.toUpper)).map
        (fun st => if st.1 = st.2 && st.1 ≠ '-' then c else st.1)) := by
      simp [seqdiff]
    rw [hdef] at hr
    have hr' := Except.ok.inj hr
    subst hr'
    constructor
    · simp [List.length_zip]
    · intro i hi
      simp only [List.length_map, List.length_zip, List.length_map] at hi
      rw [zip_map_getD _ _ _ _ _ (by simpa using hi)]
      rw [getD_map_lt Char.toUpper ' ' ' ' s i (by omega),
          getD_map_lt Char.toUpper ' ' ' ' t i (by omega)]
      by_cases h1 : (s.getD i ' ').toUpper = (t.getD i ' ').toUpper
      · by_cases h2 : (s.getD i ' ').toUpper = '-'
        · simp [h1, h2]
        · simp [h1, h2]
      · simp [h1]
  refine ⟨hmain, ?_, ?_, ?_⟩
  · intro s t c
    simp [seqdiff, Except.isOk, Except.toBool]
  · intro s t sim hsim
    have hne : sim ≠ [] := by
      intro h
      rw [h] at hsim
      simp at hsim
    simp [seqdiff, hne, hsim]
  · intro s c r hr i hi hgap
    have h := (hmain s s c r hr).2 i hi
    rw [h, if_pos ⟨rfl, toUpper_ne_dash hgap⟩]

/-- Witness for C6: the self-diff characterization applied to the
concrete record "gAt-" diffed against itself, whose result is "...-". -/
theorem seqdiff_spec_witness :
    "gAt-".toList.getD 0 ' ' ≠ '-' ∧ "...-".toList.getD 0 ' ' = '.' :=
  ⟨by decide,
   seqdiff_spec.2.2.2 "gAt-".toList '.' "...-".toList rfl 0 (by decide) (by decide)⟩

/-- C2 counterexample: with records named foo, bar, foobar the selector
"bar" is a substring of two names (bar and foobar), so
`get_seq_from_list` raises the ambiguity error rather than resolving to
index 1; and the selector "0" resolves to the first record (Python
`seqlist[0]`), not to the last one. -/
theorem get_seq_from_list_cex :
    get_seq_from_list "bar".toList
      [Seqobj.mk "foo".toList [] false, Seqobj.mk "bar".toList [] false,
       Seqobj.mk "foobar".toList [] false] = Except.error PyErr.valueError ∧
    get_seq_from_list "0".toList
      [Seqobj.mk "foo".toList [] false, Seqobj.mk "bar".toList [] false,
       Seqobj.mk "foobar".toList [] false] = Except.ok (Seqobj.mk "foo".toList [] false) ∧
    Seqobj.mk "foo".toList [] false ≠ Seqobj.mk "foobar".toList [] false :=
  ⟨rfl, rfl, by decide⟩

/-- C2 (amended): a positive integer-like selector is a 1-based index
from the start, a zero selector picks the first record (Python index 0),
a negative selector indexes Python-style from the end, and a selector
that is not usable as an index must be a case-sensitive substring of
exactly one record's name — otherwise the ambiguity error is raised.  In
the foo/bar/foobar example, "2" picks the second record, "0" the first,
and "xyz" and "bar" (a substring of two names) raise. -/
theorem get_seq_from_list_spec :
    (∀ (sel : Str) (l : List Seqobj) (k : Int) (s : Seqobj),
      pyParseInt sel = some k →
      ((0 < k → l.get? (k.toNat - 1) = some s → get_seq_from_list sel l = Except.ok s) ∧
       (k = 0 → l.get? 0 = some s → get_seq_from_list sel l = Except.ok s) ∧
       (k < 0 → (-k).toNat ≤ l.length → l.get? (l.length - (-k).toNat) = some s →
         get_seq_from_list sel l = Except.ok s))) ∧
    (∀ (sel : Str) (l : List Seqobj),
      pyParseInt sel = none →
      ((∀ s, l.filter (fun q => isSubstr sel q.name) = [s] →
         get_seq_from_list sel l = Except.ok s) ∧
       ((l.filter (fun q => isSubstr sel q.name)).length ≠ 1 →
         get_seq_from_list sel l = Except.error PyErr.valueError))) ∧
    get_seq_from_list "2".toList
      [Seqobj.mk "foo".toList [] false, Seqobj.mk "bar".toList [] false,
       Seqobj.mk "foobar".toList [] false] = Except.ok (Seqobj.mk "bar".toList [] false) ∧
    get_seq_from_list "xyz".toList
      [Seqobj.mk "foo".toList [] false, Seqobj.mk "bar".toList [] false,
       Seqobj.mk "foobar".toList [] false] = Except.error PyErr.valueError := by
  refine ⟨?_, ?_, rfl, rfl⟩
  · intro sel l k s hparse
    have hup : ∀ (r : Option Seqobj),
        ((pyParseInt sel).bind fun ref_ix =>
          if 0 < ref_ix then pyIndex l (ref_ix - 1) else pyIndex l ref_ix) = r →
        ∀ s', r = some s' → get_seq_from_list sel l = Except.ok s' := by
      intro r hatt s' hr
      subst hr
      simp only [get_seq_from_list, hatt]
    refine ⟨?_, ?_, ?_⟩
    · intro hk hget
      have hix : pyIndex l (k - 1) = some s := by
        have h0 : (0 : Int) ≤ k - 1 := by omega
        have ht : (k - 1).toNat = k.toNat - 1 := by omega
        simp only [pyIndex, if_pos h0, ht]
        exact hget
      refine hup _ ?_ s rfl
      rw [hparse, Option.some_bind, if_pos hk, hix]
    · intro hk hget
      subst hk
      have hix : pyIndex l 0 = some s := by
        simp only [pyIndex, le_refl, if_pos]
        simpa using hget
      refine hup _ ?_ s rfl
      rw [hparse, Option.some_bind]
      norm_num
      exact hix
    · intro hk hlen hget
      have hix : pyIndex l k = some s := by
        have h0 : ¬ (0 : Int) ≤ k := by omega
        simp only [pyIndex, if_neg h0, if_pos hlen]
        exact hget
      have hnotpos : ¬ 0 < k := by omega
      refine hup _ ?_ s rfl
      rw [hparse, Option.some_bind, if_neg hnotpos, hix]
  · intro sel l hparse
    have hattempt : ((pyParseInt sel).bind fun ref_ix =>
        if 0 < ref_ix then pyIndex l (ref_ix - 1) else pyIndex l ref_ix) = none := by
      simp [hparse]
    constructor
    · intro s hfilt
      simp only [get_seq_from_list, hattempt, hfilt]
    · intro hfilt
      simp only [get_seq_from_list, hattempt]
      match hcase : l.filter (fun q => isSubstr sel q.name) with
      | [] => rw [hcase]
      | [s] => rw [hcase] at hfilt; simp at hfilt
      | s :: s' :: t => rw [hcase]

/-- Witness for C2: the amended numeric rule applied to the selector "2"
in the foo/bar/foobar list picks the second record. -/
theorem get_seq_from_list_spec_witness :
    get_seq_from_list "2".toList
      [Seqobj.mk "foo".toList [] false, Seqobj.mk "bar".toList [] false,
       Seqobj.mk "foobar".toList [] false] = Except.ok (Seqobj.mk "bar".toList [] false) :=
  (get_seq_from_list_spec.1 "2".toList
      [Seqobj.mk "foo".toList [] false, Seqobj.mk "bar".toList [] false,
       Seqobj.mk "foobar".toList [] false] 2 (Seqobj.mk "bar".toList [] false) rfl).1
    (by decide) rfl

/-! ### Lemmas about `foldl max` (the behaviour of Python `max`) -/

theorem foldl_max_base : ∀ (l : List Nat) (a : Nat), a ≤ l.foldl max a := by
  intro l
  induction l with
  | nil => intro a; exact le_refl a
  | cons y t ih =>
      intro a
      calc a ≤ max a y := le_max_left a y
        _ ≤ t.foldl max (max a y) := ih (max a y)

theorem foldl_max_le : ∀ (l : List Nat) (a x : Nat), x ∈ l → x ≤ l.foldl max a := by
  intro l
  induction l with
  | nil => intro a x hx; cases hx
  | cons y t ih =>
      intro a x hx
      rcases List.mem_cons.mp hx with h | h
      · subst h
        calc x ≤ max a x := le_max_right a x
          _ ≤ t.foldl max (max a x) := foldl_max_base t (max a x)
      · exact ih (max a y) x h

theorem foldl_max_mem : ∀ (l : List Nat) (a : Nat), l.foldl max a = a ∨ l.foldl max a ∈ l := by
  intro l
  induction l with
  | nil => intro a; exact Or.inl rfl
  | cons y t ih =>
      intro a
      rcases ih (max a y) with h | h
      · rcases Nat.le_total a y with hay | hya
        · right
          rw [List.foldl_cons, h, max_eq_right hay]
          exact List.mem_cons_self _ _
        · left
          rw [List.foldl_cons, h, max_eq_left hya]
      · right
        exact List.mem_cons_of_mem _ h

/-- Length invariant of the tabulation fold: each step zips a
`maxLength`-long dictionary list with a `maxLength`-long padded string. -/
theorem tab_fold_length (M : Nat) :
    ∀ (l : List Seqobj) (dl : List (List (Char × Nat))),
      dl.length = M → (∀ s ∈ l, s.seq.length ≤ M) →
      (List.foldl (fun dictList seq =>
          List.zipWith (fun d c => dincr c d) dictList
            (seq.seq ++ List.replicate (M - seq.seq.length) '-')) dl l).length = M := by
  intro l
  induction l with
  | nil => intro dl hdl _; exact hdl
  | cons s t ih =>
      intro dl hdl hle
      rw [List.foldl_cons]
      apply ih
      · rw [List.length_zipWith, hdl, List.length_append, List.length_replicate]
        have hs := hle s (List.mem_cons_self _ _)
        omega
      · intro s' hs'
        exact hle s' (List.mem_cons_of_mem _ hs')

/-- C8: `tabulate` fails (with the spec's `ValidationError`) exactly when
the record list is empty; on every non-empty record list it succeeds and
returns one frequency table per column of the padded alignment — as many
tables as the longest record's length. -/
theorem tabulate_spec :
    (∀ l : List Seqobj, (tabulate l).isOk ↔ l ≠ []) ∧
    (∀ (l : List Seqobj) (ts : List (List (Char × Nat))), tabulate l = Except.ok ts →
      (∀ s ∈ l, s.seq.length ≤ ts.length) ∧ ∃ s ∈ l, s.seq.length = ts.length) := by
  constructor
  · intro l
    match l with
    | [] => simp [tabulate, Except.isOk, Except.toBool]
    | s :: t => simp [tabulate, Except.isOk, Except.toBool]
  · intro l ts hts
    match l with
    | [] => simp [tabulate] at hts
    | s :: t =>
        simp only [tabulate] at hts
        have hts' := Except.ok.inj hts
        set M := ((s :: t).map (fun s => s.seq.length)).foldl max 0 with hM
        have hle : ∀ q ∈ s :: t, q.seq.length ≤ M := by
          intro q hq
          exact foldl_max_le _ 0 q.seq.length (List.mem_map.mpr ⟨q, hq, rfl⟩)
        have hlen : ts.length = M := by
          rw [← hts']
          exact tab_fold_length M (s :: t) (List.replicate M [])
            (List.length_replicate M []) hle
        constructor
        · intro q hq
          rw [hlen]
          exact hle q hq
        · rcases foldl_max_mem ((s :: t).map (fun s => s.seq.length)) 0 with h | h
          · refine ⟨s, List.mem_cons_self _ _, ?_⟩
            have hs := hle s (List.mem_cons_self _ _)
            have hM0 : M = 0 := by rw [hM]; exact h
            omega
          · obtain ⟨q, hq, hqlen⟩ := List.mem_map.mp h
            refine ⟨q, hq, ?_⟩
            rw [hlen, hM]
            exact hqlen

/-- Witness for C8: a two-record list with lengths 2 and 1 tabulates to
two column tables (and `tabulate` is not an error there). -/
theorem tabulate_spec_witness :
    (tabulate [Seqobj.mk "a".toList "AC".toList false,
               Seqobj.mk "b".toList "A".toList false]).isOk = true :=
  (tabulate_spec.1 [Seqobj.mk "a".toList "AC".toList false,
      Seqobj.mk "b".toList "A".toList false]).mpr (by decide)

/-! ### Lemmas about the extent scan of `get_extent` -/

theorem findFirstAlpha_none_iff :
    ∀ s : Str, findFirstAlpha s = none ↔ ∀ c ∈ s, pyIsAlpha c = false := by
  intro s
  induction s with
  | nil => simp [findFirstAlpha]
  | cons c t ih =>
      by_cases hc : pyIsAlpha c
      · simp [findFirstAlpha, hc]
      · simp only [findFirstAlpha, if_neg hc, Option.map_eq_none', ih, List.mem_cons]
        constructor
        · intro h c' hc'
          rcases hc' with h' | h'
          · subst h'
            simpa using hc
          · exact h c' h'
        · intro h c' hc'
          exact h c' (Or.inr hc')

theorem findFirstAlpha_some_spec :
    ∀ (s : Str) (i : Nat), findFirstAlpha s = some i →
      i < s.length ∧ pyIsAlpha (s.getD i ' ') = true ∧
        ∀ j, j < i → pyIsAlpha (s.getD j ' ') = false := by
  intro s
  induction s with
  | nil => intro i h; simp [findFirstAlpha] at h
  | cons c t ih =>
      intro i h
      by_cases hc : pyIsAlpha c
      · rw [findFirstAlpha, if_pos hc] at h
        have h0 : i = 0 := (Option.some.inj h).symm
        subst h0
        exact ⟨by simp, by simpa using hc, fun j hj => absurd hj (by omega)⟩
      · rw [findFirstAlpha, if_neg hc] at h
        obtain ⟨j, hj, hji⟩ := Option.map_eq_some'.mp h
        obtain ⟨h1, h2, h3⟩ := ih j hj
        subst hji
        refine ⟨by simpa using h1, by simpa using h2, ?_⟩
        intro j' hj'
        cases j' with
        | zero => simpa using hc
        | succ j'' =>
            simp only [List.getD_cons_succ]
            exact h3 j'' (by omega)

theorem dropNonAlpha_decomp :
    ∀ s : Str, ∃ p, s = p ++ dropNonAlpha s ∧ ∀ c ∈ p, pyIsAlpha c = false := by
  intro s
  induction s with
  | nil => exact ⟨[], rfl, by simp⟩
  | cons c t ih =>
      by_cases hc : pyIsAlpha c
      · exact ⟨[], by simp [dropNonAlpha, hc], by simp⟩
      · obtain ⟨p, hp1, hp2⟩ := ih
        refine ⟨c :: p, ?_, ?_⟩
        · simp only [dropNonAlpha, if_neg hc, List.cons_append]
          exact congrArg (c :: ·) hp1
        · intro c' hc'
          rcases List.mem_cons.mp hc' with h | h
          · subst h; simpa using hc
          · exact hp2 c' h

theorem dropNonAlpha_head :
    ∀ (s : Str) (c : Char) (t : Str), dropNonAlpha s = c :: t → pyIsAlpha c = true := by
  intro s
  induction s with
  | nil => intro c t h; simp [dropNonAlpha] at h
  | cons c' t' ih =>
      intro c t h
      by_cases hc : pyIsAlpha c'
      · rw [dropNonAlpha, if_pos hc] at h
        cases h
        simpa using hc
      · rw [dropNonAlpha, if_neg hc] at h
        exact ih c t h

theorem dropNonAlpha_nil_iff :
    ∀ s : Str, dropNonAlpha s = [] ↔ ∀ c ∈ s, pyIsAlpha c = false := by
  intro s
  induction s with
  | nil => simp [dropNonAlpha]
  | cons c t ih =>
      by_cases hc : pyIsAlpha c
      · simp [dropNonAlpha, hc]
      · simp only [dropNonAlpha, if_neg hc, ih, List.mem_cons]
        constructor
        · intro h c' hc'
          rcases hc' with h' | h'
          · subst h'; simpa using hc
          · exact h c' h'
        · intro h c' hc'
          exact h c' (Or.inr hc')

/-- C10: `get_extent` crashes (modelled as `none`) precisely on strings
with no ASCII letter — every non-letter character, not only the gap,
counts as a gap; on a string containing a letter it returns the 0-based
half-open range from the first letter to one past the last letter; and
`reformat` with a `trim_to` selector naming an all-gap record fails with
the `AttributeError`, outside the documented error model. -/
theorem get_extent_spec :
    (∀ s : Str, get_extent s = none ↔ ∀ c ∈ s, pyIsAlpha c = false) ∧
    (∀ (s : Str) (start stop : Nat), get_extent s = some (start, stop) →
      (start < s.length ∧ pyIsAlpha (s.getD start ' ') = true ∧
        ∀ j, j < start → pyIsAlpha (s.getD j ' ') = false) ∧
      (0 < stop ∧ stop ≤ s.length ∧ pyIsAlpha (s.getD (stop - 1) ' ') = true ∧
        ∀ j, stop ≤ j → j < s.length → pyIsAlpha (s.getD j ' ') = false)) ∧
    reformat [Seqobj.mk "g".toList "--".toList false] false false none false false 1
      ".".toList false none (some "1".toList) false = Except.error PyErr.attributeError := by
  refine ⟨?_, ?_, rfl⟩
  · intro s
    unfold get_extent
    match hcase : findFirstAlpha s with
    | none => simpa [findFirstAlpha_none_iff] using hcase
    | some i =>
        simp only []
        constructor
        · intro h; cases h
        · intro h
          rw [(findFirstAlpha_none_iff s).mpr h] at hcase
          cases hcase
  · intro s start stop hse
    unfold get_extent at hse
    match hcase : findFirstAlpha s with
    | none => rw [hcase] at hse; cases hse
    | some i =>
        rw [hcase] at hse
        have hpair := Option.some.inj hse
        have hstart : start = i := congrArg Prod.fst hpair |>.symm
        have hstop : stop = (rstripNonAlpha s).length := congrArg Prod.snd hpair |>.symm
        subst hstart
        constructor
        · exact findFirstAlpha_some_spec s start hcase
        · obtain ⟨p, hp1, hp2⟩ := dropNonAlpha_decomp s.reverse
          have hsplit : s = (dropNonAlpha s.reverse).reverse ++ p.reverse := by
            have h := congrArg List.reverse hp1
            simpa using h
          have hlen : s.length = p.length + (dropNonAlpha s.reverse).length := by
            have h := congrArg List.length hp1
            simp only [List.length_reverse, List.length_append] at h
            omega
          have hstop' : stop = (dropNonAlpha s.reverse).length := by
            rw [hstop]
            simp [rstripNonAlpha]
          match hr : dropNonAlpha s.reverse with
          | [] =>
              exfalso
              obtain ⟨h1, h2, _⟩ := findFirstAlpha_some_spec s start hcase
              have hall : ∀ c ∈ s.reverse, pyIsAlpha c = false :=
                (dropNonAlpha_nil_iff s.reverse).mp hr
              have hmem : s.getD start ' ' ∈ s := by
                rw [List.getD_eq_getElem s ' ' h1]
                exact List.getElem_mem h1
              have := hall (s.getD start ' ') (List.mem_reverse.mpr hmem)
              rw [this] at h2
              cases h2
          | c :: t =>
              have hc : pyIsAlpha c = true := dropNonAlpha_head s.reverse c t hr
              rw [hr] at hsplit hlen hstop'
              have hstoplen : stop = t.length + 1 := by simpa using hstop'
              refine ⟨by omega, by omega, ?_, ?_⟩
              · rw [hsplit]
                have hlt : stop - 1 < ((c :: t).reverse).length := by
                  simp only [List.length_reverse, List.length_cons]
                  omega
                rw [List.getD_append _ _ _ _ hlt]
                have hrev : (c :: t).reverse = t.reverse ++ [c] := by simp
                rw [hrev, List.getD_append_right _ _ _ _ (by simp; omega)]
                have : stop - 1 - t.reverse.length = 0 := by simp; omega
                rw [this]
                simpa using hc
              · intro j hj1 hj2
                rw [hsplit]
                have hge : ((c :: t).reverse).length ≤ j := by
                  simp only [List.length_reverse, List.length_cons]
                  omega
                rw [List.getD_append_right _ _ _ _ hge]
                have hjlt : j - ((c :: t).reverse).length < p.reverse.length := by
                  simp only [List.length_reverse, List.length_cons] at *
                  omega
                have hmem : p.reverse.getD (j - ((c :: t).reverse).length) ' ' ∈ p.reverse := by
                  rw [List.getD_eq_getElem _ ' ' hjlt]
                  exact List.getElem_mem hjlt
                exact hp2 _ (List.mem_reverse.mp hmem)

/-- Witness for C10: the all-gap string "--" has no extent, and the
string "--ACGT--" has extent (2, 6). -/
theorem get_extent_spec_witness :
    get_extent "--".toList = none ∧
    (2 < "--ACGT--".toList.length ∧ pyIsAlpha ("--ACGT--".toList.getD 2 ' ') = true ∧
      ∀ j, j < 2 → pyIsAlpha ("--ACGT--".toList.getD j ' ') = false) :=
  ⟨(get_extent_spec.1 "--".toList).mpr (by decide),
   (get_extent_spec.2.1 "--ACGT--".toList 2 6 (by decide)).1⟩

/-- C1 (code bug, failing input): calling `reformat` on the single record
"-AC-" with `trim_to = "1"`, `seqrange = None`, and both column-exclusion
flags off.  Line 161 of `util.py` applies the composed mask to the
sequences only when `seqrange or exclude_invariant or exclude_gapcols`,
omitting `trim_to`, so the trim mask is applied to the numbering ruler
but not to the records: the returned record keeps its 4 characters while
every ruler digit-string and the mask's true-count are 2.  This
contradicts the claimed invariant and the docstring promise that
`trim_to` trims the alignment. -/
theorem reformat_mask_cex :
    reformat [Seqobj.mk "s1".toList "-AC-".toList false] false false none false false 1
        ".".toList false none (some "1".toList) false =
      Except.ok ([Seqobj.mk "s1".toList "-AC-".toList false], ["23".toList],
        [false, true, true, false]) ∧
    (Seqobj.mk "s1".toList "-AC-".toList false).seq.length = 4 ∧
    ("23".toList).length = 2 ∧
    [false, true, true, false].count true = 2 ∧ (4 : Nat) ≠ 2 :=
  ⟨rfl, rfl, rfl, rfl, by decide⟩

/-! ### Decimal numeral lemmas for the numbering ruler -/

theorem digitVal_digitChar (d : Nat) (h : d < 10) : digitVal (digitChar d) = d := by
  match d, h with
  | 0, _ => decide
  | 1, _ => decide
  | 2, _ => decide
  | 3, _ => decide
  | 4, _ => decide
  | 5, _ => decide
  | 6, _ => decide
  | 7, _ => decide
  | 8, _ => decide
  | 9, _ => decide

theorem parseNatAux_append (a : Nat) (l1 l2 : Str) :
    parseNatAux a (l1 ++ l2) = parseNatAux (parseNatAux a l1) l2 := by
  simp [parseNatAux, List.foldl_append]

theorem parse_pyDecReprAux : ∀ (fuel n a : Nat), n < fuel →
    parseNatAux a (pyDecReprAux fuel n) = a * 10 ^ (pyDecReprAux fuel n).length + n := by
  intro fuel
  induction fuel with
  | zero => intro n a h; exact absurd h (Nat.not_lt_zero n)
  | succ f ih =>
      intro n a h
      by_cases hn : n < 10
      · simp only [pyDecReprAux, if_pos hn]
        simp [parseNatAux, digitVal_digitChar n hn]
        omega
      · simp only [pyDecReprAux, if_neg hn]
        have hrec : n / 10 < f := by omega
        rw [parseNatAux_append, ih (n / 10) a hrec]
        have hdm : 10 * (n / 10) + n % 10 = n := by omega
        simp [parseNatAux, digitVal_digitChar (n % 10) (by omega)]
        rw [pow_succ]
        have hexp : 10 * (a * 10 ^ (pyDecReprAux f (n / 10)).length + n / 10) + n % 10
            = 10 * (a * 10 ^ (pyDecReprAux f (n / 10)).length) + (10 * (n / 10) + n % 10) := by
          ring
        rw [hexp, hdm]
        ring

theorem pyDecReprAux_len_pos : ∀ (fuel n : Nat), n < fuel → 0 < (pyDecReprAux fuel n).length := by
  intro fuel n h
  match fuel, h with
  | f + 1, _ =>
      by_cases hn : n < 10
      · simp [pyDecReprAux, hn]
      · simp [pyDecReprAux, hn]

theorem pyDecReprAux_len_mono : ∀ (f1 m f2 n : Nat), m < f1 → n < f2 → m ≤ n →
    (pyDecReprAux f1 m).length ≤ (pyDecReprAux f2 n).length := by
  intro f1
  induction f1 with
  | zero => intro m f2 n h1; exact absurd h1 (Nat.not_lt_zero m)
  | succ g1 ih =>
      intro m f2 n h1 h2 hmn
      by_cases hm : m < 10
      · have := pyDecReprAux_len_pos f2 n h2
        simp only [pyDecReprAux, if_pos hm, List.length_singleton]
        omega
      · have hn : ¬ n < 10 := by omega
        match f2, h2 with
        | g2 + 1, _ =>
            simp only [pyDecReprAux, if_neg hm, if_neg hn, List.length_append,
              List.length_singleton]
            have hr := ih (m / 10) g2 (n / 10) (by omega) (by omega)
              (Nat.div_le_div_right hmn)
            omega

theorem parse_replicate_zero : ∀ k : Nat, parseNatAux 0 (List.replicate k '0') = 0 := by
  intro k
  induction k with
  | zero => rfl
  | succ j ih =>
      simp only [List.replicate_succ, parseNatAux, List.foldl_cons]
      simpa [parseNatAux, digitVal] using ih

theorem parse_padZeros (w : Nat) (s : Str) :
    parseNat (padZeros w s) = parseNat s := by
  simp only [parseNat, padZeros, parseNatAux_append, parse_replicate_zero]

theorem padZeros_length {w : Nat} {s : Str} (h : s.length ≤ w) :
    (padZeros w s).length = w := by
  simp only [padZeros, List.length_append, List.length_replicate]
  omega

theorem range_getD_eq_self {α : Type} (d : α) :
    ∀ l : List α, (List.range l.length).map (fun n => l.getD n d) = l := by
  intro l
  induction l with
  | nil => rfl
  | cons x t ih =>
      rw [List.length_cons, List.range_succ_eq_map, List.map_cons, List.map_map]
      simp only [List.getD_cons_zero]
      refine congrArg (x :: ·) ?_
      have hfun : ((fun n => (x :: t).getD n d) ∘ Nat.succ) = (fun n => t.getD n d) := by
        funext n
        simp [List.getD_cons_succ]
      rw [hfun, ih]

theorem getD_range (n i : Nat) (h : i < n) : (List.range n).getD i 0 = i := by
  rw [List.getD_eq_getElem _ _ (by simpa using h)]
  simp

/-- The numbering loop with `ignore_gaps = True` numbers every column
sequentially from the initial counter. -/
theorem vnumberCells_ignore (fmt : Nat → Str) (gapstr : Str) :
    ∀ (s : Str) (pre : List Str) (i : Nat),
      s.foldl
        (fun (acc : List Str × Nat) c =>
          if (true : Bool) = false && c = '-' then (acc.1 ++ [gapstr], acc.2)
          else (acc.1 ++ [fmt acc.2], acc.2 + 1))
        (pre, i)
      = (pre ++ (List.range s.length).map (fun k => fmt (i + k)), i + s.length) := by
  intro s
  induction s with
  | nil => intro pre i; simp
  | cons c t ih =>
      intro pre i
      rw [List.foldl_cons]
      have hstep : (if (true : Bool) = false && c = '-' then (pre ++ [gapstr], i)
          else (pre ++ [fmt i], i + 1)) = (pre ++ [fmt i], i + 1) := by
        simp
      rw [hstep, ih]
      simp only [Prod.mk.injEq]
      constructor
      · rw [List.append_assoc]
        refine congrArg (pre ++ ·) ?_
        rw [List.length_cons, List.range_succ_eq_map, List.map_cons, List.map_map]
        have hfun : ((fun k => fmt (i + k)) ∘ Nat.succ) = (fun k => fmt (i + 1 + k)) := by
          funext k
          simp only [Function.comp_apply]
          exact congrArg fmt (by omega)
        simp only [List.singleton_append, Nat.add_zero, hfun]
      · simp only [List.length_cons]
        omega

/-- C4: for a gap-free sequence of length N, the ruler of `get_vnumbers`
(with gaps counted, `ignore_gaps = True`) has as many digit-strings as
the decimal width of N+1, each of length N, and reading the digit-strings
downward at column i and parsing the concatenation as an integer yields
exactly the 1-based position i+1 — a dense 1..N numbering. -/
theorem get_vnumbers_roundtrip (s : Str) (hg : '-' ∉ s) :
    (get_vnumbers s true true).length = (pyDecRepr (s.length + 1)).length ∧
    (∀ r ∈ get_vnumbers s true true, r.length = s.length) ∧
    (∀ i, i < s.length →
      parseNat ((get_vnumbers s true true).map (fun r => r.getD i ' ')) = i + 1) := by
  generalize hdg : (pyDecRepr (s.length + 1)).length = digs
  have hmain : get_vnumbers s true true =
      (List.range digs).map (fun n =>
        ((List.range s.length).map (fun k => padZeros digs (pyDecRepr (1 + k)))).map
          (fun x => x.getD n ' ')) := by
    simp only [get_vnumbers, vnumberCells, if_true, hdg]
    rw [vnumberCells_ignore (fun x => padZeros digs (pyDecRepr x))
      (List.replicate digs '-') s [] 1]
    simp
  refine ⟨?_, ?_, ?_⟩
  · rw [hmain]
    simp
  · intro r hr
    rw [hmain] at hr
    obtain ⟨n, _, hn⟩ := List.mem_map.mp hr
    rw [← hn]
    simp
  · intro i hi
    have hreprlen : (pyDecRepr (1 + i)).length ≤ digs := by
      rw [← hdg]
      exact pyDecReprAux_len_mono (1 + i + 1) (1 + i) (s.length + 1 + 1) (s.length + 1)
        (by omega) (by omega) (by omega)
    have hL : (padZeros digs (pyDecRepr (1 + i))).length = digs := padZeros_length hreprlen
    rw [hmain, List.map_map]
    have hcol : ∀ n : Nat,
        (((List.range s.length).map (fun k => padZeros digs (pyDecRepr (1 + k)))).map
          (fun x => x.getD n ' ')).getD i ' '
        = (padZeros digs (pyDecRepr (1 + i))).getD n ' ' := by
      intro n
      rw [getD_map_lt (fun x => x.getD n ' ') ' ' ([] : Str) _ i (by simpa using hi)]
      rw [getD_map_lt (fun k => padZeros digs (pyDecRepr (1 + k))) ([] : Str) 0 _ i
        (by simpa using hi)]
      rw [getD_range s.length i hi]
    have hcols : ((List.range digs).map fun n =>
        (((List.range s.length).map (fun k => padZeros digs (pyDecRepr (1 + k)))).map
          (fun x => x.getD n ' ')).getD i ' ')
        = (List.range digs).map (fun n => (padZeros digs (pyDecRepr (1 + i))).getD n ' ') := by
      apply List.map_congr_left
      intro n _
      exact hcol n
    have hcomp : ((List.range digs).map fun n =>
        ((fun r => r.getD i ' ') ∘ fun n =>
          ((List.range s.length).map (fun k => padZeros digs (pyDecRepr (1 + k)))).map
            (fun x => x.getD n ' ')) n)
        = (List.range digs).map (fun n => (padZeros digs (pyDecRepr (1 + i))).getD n ' ') := by
      simpa using hcols
    have hrange : List.range digs = List.range (padZeros digs (pyDecRepr (1 + i))).length := by
      rw [hL]
    rw [hcomp, hrange, range_getD_eq_self ' ' (padZeros digs (pyDecRepr (1 + i))),
      parse_padZeros]
    have hp := parse_pyDecReprAux (1 + i + 1) (1 + i) 0 (by omega)
    simp only [pyDecRepr] at *
    rw [parseNat] at *
    omega

/-- Witness for C4: the three-column gap-free sequence "ACG" has a
one-digit ruler whose column 0 parses to 1. -/
theorem get_vnumbers_roundtrip_witness :
    parseNat ((get_vnumbers "ACG".toList true true).map (fun r => r.getD 0 ' ')) = 1 :=
  (get_vnumbers_roundtrip "ACG".toList (by decide)).2.2 0 (by decide)

/-! ### Frame lemmas over the object heap -/

theorem getElem?_heap_append {h ext : Heap} {i : Nat} (hi : i < h.length) :
    (h ++ ext)[i]? = h[i]? := by
  rw [List.getElem?_append, if_pos hi]

theorem heap_set_preserves {h : Heap} {r i : Nat} {o : Seqobj} (hir : i ≠ r) :
    (h.set r o)[i]? = h[i]? :=
  List.getElem?_set_ne (Ne.symm hir)

theorem copyPhase_heap_ext :
    ∀ (refs : List Nat) (h : Heap), ∃ ext, (copyPhase h refs).1 = h ++ ext := by
  intro refs
  induction refs with
  | nil => intro h; exact ⟨[], by simp [copyPhase]⟩
  | cons r t ih =>
      intro h
      obtain ⟨ext, hext⟩ := ih (h ++ [Seqobj.mk (heapGet h r).name (heapGet h r).seq false])
      refine ⟨[Seqobj.mk (heapGet h r).name (heapGet h r).seq false] ++ ext, ?_⟩
      simp only [copyPhase, alloc]
      rw [hext, List.append_assoc]

theorem copyPhase_refs_ge :
    ∀ (refs : List Nat) (h : Heap), ∀ q ∈ (copyPhase h refs).2, h.length ≤ q := by
  intro refs
  induction refs with
  | nil => intro h q hq; simp [copyPhase] at hq
  | cons r t ih =>
      intro h q hq
      simp only [copyPhase, alloc] at hq
      rcases List.mem_cons.mp hq with h' | h'
      · omega
      · have := ih (h ++ [Seqobj.mk (heapGet h r).name (heapGet h r).seq false]) q h'
        simp only [List.length_append, List.length_singleton] at this
        omega

theorem copyPhase_heap_len :
    ∀ (refs : List Nat) (h : Heap), h.length ≤ (copyPhase h refs).1.length := by
  intro refs h
  obtain ⟨ext, hext⟩ := copyPhase_heap_ext refs h
  rw [hext]
  simp

theorem comparePhase_preserves (cn cs sim : Str) :
    ∀ (refs : List Nat) (h : Heap) (n : Nat), (∀ q ∈ refs, n ≤ q) → ∀ i, i < n →
      ((comparePhase cn cs sim refs h).1)[i]? = h[i]? := by
  intro refs
  induction refs with
  | nil => intro h n _ i _; rfl
  | cons r t ih =>
      intro h n hq i hi
      have hr : n ≤ r := hq r (List.mem_cons_self _ _)
      have htail : ∀ q ∈ t, n ≤ q := fun q hq' => hq q (List.mem_cons_of_mem _ hq')
      by_cases hname : (heapGet h r).name = cn
      · simp only [comparePhase, if_pos hname]
        rw [ih _ n htail i hi, heap_set_preserves (by omega)]
      · simp only [comparePhase, if_neg hname]
        match hsd : seqdiff (heapGet h r).seq cs sim with
        | Except.error e => rfl
        | Except.ok d =>
            rw [ih _ n htail i hi, heap_set_preserves (by omega)]

theorem maskPhase_preserves (mask : List Bool) :
    ∀ (refs : List Nat) (h : Heap) (n : Nat), (∀ q ∈ refs, n ≤ q) → ∀ i, i < n →
      (maskPhase mask refs h)[i]? = h[i]? := by
  intro refs
  induction refs with
  | nil => intro h n _ i _; rfl
  | cons r t ih =>
      intro h n hq i hi
      have hr : n ≤ r := hq r (List.mem_cons_self _ _)
      have htail : ∀ q ∈ t, n ≤ q := fun q hq' => hq q (List.mem_cons_of_mem _ hq')
      simp only [maskPhase, List.foldl_cons]
      have := ih (h.set r (Seqobj.mk (heapGet h r).name
        (apply_mask mask (heapGet h r).seq) (heapGet h r).reference)) n htail i hi
      simp only [maskPhase] at this
      rw [this, heap_set_preserves (by omega)]

theorem step1_pre (h1 : Heap) (o : Seqobj) (sl0 : List Nat) (ac rt : Bool) {i n : Nat}
    (hi : i < n) (hn : n ≤ h1.length) :
    (if ac = true then
        ((alloc h1 o).1, if rt = true then (alloc h1 o).2 :: sl0 else sl0 ++ [(alloc h1 o).2])
      else (h1, sl0)).1[i]? = h1[i]? := by
  split
  · simp only [alloc]
    exact getElem?_heap_append (by omega)
  · rfl

theorem step1_len (h1 : Heap) (o : Seqobj) (sl0 : List Nat) (ac rt : Bool) {n : Nat}
    (hn : n ≤ h1.length) :
    n ≤ (if ac = true then
        ((alloc h1 o).1, if rt = true then (alloc h1 o).2 :: sl0 else sl0 ++ [(alloc h1 o).2])
      else (h1, sl0)).1.length := by
  split
  · simp only [alloc, List.length_append, List.length_singleton]
    omega
  · exact hn

theorem step1_refs (h1 : Heap) (o : Seqobj) (sl0 : List Nat) (ac rt : Bool) {n : Nat}
    (hn : n ≤ h1.length) (hsl : ∀ q ∈ sl0, n ≤ q) :
    ∀ q ∈ (if ac = true then
        ((alloc h1 o).1, if rt = true then (alloc h1 o).2 :: sl0 else sl0 ++ [(alloc h1 o).2])
      else (h1, sl0)).2, n ≤ q := by
  split
  · intro q hq
    simp only [alloc] at hq
    split at hq
    · rcases List.mem_cons.mp hq with h | h
      · omega
      · exact hsl q h
    · rcases List.mem_append.mp hq with h | h
      · exact hsl q h
      · simp only [List.mem_singleton] at h
        omega
  · exact hsl

set_option maxHeartbeats 2000000 in
theorem reformat_rest_preserves (h1 : Heap) (sl0 : List Nat) (ac cmp : Bool) (cto : Option Str)
    (eg ei : Bool) (ms : Nat) (sim : Str) (cg : Bool) (sr : Option (Int × Int))
    (tt : Option Str) (rt : Bool) {n i : Nat} (hn : n ≤ h1.length)
    (hsl : ∀ q ∈ sl0, n ≤ q) (hi : i < n) :
    (reformat_rest h1 sl0 ac cmp cto eg ei ms sim cg sr tt rt).1[i]? = h1[i]? := by
  simp only [reformat_rest]
  split
  · rfl
  · split
    · rfl
    next cs heq2 =>
      have hpre_alloc : ∀ j, j < n →
          (alloc h1 (Seqobj.mk "CONSENSUS".toList (cs.map Char.toUpper) false)).1[j]? = h1[j]? := by
        intro j hj
        simp only [alloc]
        exact getElem?_heap_append (by omega)
      have hacons : ∀ q ∈ (alloc h1 (Seqobj.mk "CONSENSUS".toList (cs.map Char.toUpper) false)).2 :: sl0,
          n ≤ q := by
        intro q hq
        rcases List.mem_cons.mp hq with h | h
        · subst h
          exact hn
        · exact hsl q h
      have happ : ∀ q ∈ sl0 ++ [(alloc h1 (Seqobj.mk "CONSENSUS".toList (cs.map Char.toUpper) false)).2],
          n ≤ q := by
        intro q hq
        rcases List.mem_append.mp hq with h | h
        · exact hsl q h
        · simp only [List.mem_singleton] at h
          subst h
          exact hn
      split
      next e heq3 => exact step1_pre h1 _ sl0 ac rt hi hn
      next cinfo heq3 =>
        repeat' split
        all_goals
          first
            | contradiction
            | rfl
            | exact step1_pre h1 _ sl0 ac rt hi hn
            | exact hpre_alloc i hi
            | (simp only []
               first
                 | done
                 | rfl
                 | exact hpre_alloc i hi
                 | (rw [comparePhase_preserves _ _ _ _ _ n hacons i hi]
                    first | done | rfl | exact hpre_alloc i hi)
                 | (rw [comparePhase_preserves _ _ _ _ _ n happ i hi]
                    first | done | rfl | exact hpre_alloc i hi)
                 | (rw [comparePhase_preserves _ _ _ _ _ n hsl i hi]
                    first | done | rfl | exact hpre_alloc i hi)
                 | (rw [maskPhase_preserves _ _ _ n hacons i hi]
                    first
                      | done
                      | rfl
                      | exact hpre_alloc i hi
                      | (rw [comparePhase_preserves _ _ _ _ _ n hacons i hi]
                         first | done | rfl | exact hpre_alloc i hi))
                 | (rw [maskPhase_preserves _ _ _ n happ i hi]
                    first
                      | done
                      | rfl
                      | exact hpre_alloc i hi
                      | (rw [comparePhase_preserves _ _ _ _ _ n happ i hi]
                         first | done | rfl | exact hpre_alloc i hi))
                 | (rw [maskPhase_preserves _ _ _ n hsl i hi]
                    first
                      | done
                      | rfl
                      | exact hpre_alloc i hi
                      | (rw [comparePhase_preserves _ _ _ _ _ n hsl i hi]
                         first | done | rfl | exact hpre_alloc i hi)))

/-- C9: `reformat` never mutates the caller's records.  Over the explicit
object heap, every object that existed before the call — in particular
every input record, its name and its character string — is unchanged in
the heap returned by `reformat_heap`, whether the call succeeds or
raises. -/
theorem reformat_frame (h0 : Heap) (seqRefs : List Nat)
    (ac cmp : Bool) (cto : Option Str) (eg ei : Bool) (ms : Nat) (sim : Str)
    (cg : Bool) (sr : Option (Int × Int)) (tt : Option Str) (rt : Bool)
    (r : Nat) (hr : r < h0.length) :
    (reformat_heap h0 seqRefs ac cmp cto eg ei ms sim cg sr tt rt).1[r]? = h0[r]? ∧
    (heapGet (reformat_heap h0 seqRefs ac cmp cto eg ei ms sim cg sr tt rt).1 r).name
      = (heapGet h0 r).name ∧
    (heapGet (reformat_heap h0 seqRefs ac cmp cto eg ei ms sim cg sr tt rt).1 r).seq
      = (heapGet h0 r).seq := by
  obtain ⟨ext, hext⟩ := copyPhase_heap_ext seqRefs h0
  have hn : h0.length ≤ (copyPhase h0 seqRefs).1.length := copyPhase_heap_len _ _
  have hsl : ∀ q ∈ (copyPhase h0 seqRefs).2, h0.length ≤ q := copyPhase_refs_ge _ _
  have hmain : (reformat_heap h0 seqRefs ac cmp cto eg ei ms sim cg sr tt rt).1[r]? = h0[r]? := by
    simp only [reformat_heap]
    rw [reformat_rest_preserves (copyPhase h0 seqRefs).1 (copyPhase h0 seqRefs).2
      ac cmp cto eg ei ms sim cg sr tt rt hn hsl hr]
    rw [hext]
    exact getElem?_heap_append hr
  have hobj : heapGet (reformat_heap h0 seqRefs ac cmp cto eg ei ms sim cg sr tt rt).1 r
      = heapGet h0 r := by
    simp only [heapGet, List.getD_eq_getElem?_getD, hmain]
  exact ⟨hmain, congrArg Seqobj.name hobj, congrArg Seqobj.seq hobj⟩

/-- Witness for C9: a singleton heap with the caller's record "-AC-" at
reference 0 is unchanged by a defaults-like `reformat_heap` call. -/
theorem reformat_frame_witness :
    (reformat_heap [Seqobj.mk "s1".toList "-AC-".toList false] [0] true true none
      true false 1 ".".toList false none none false).1[0]?
      = [Seqobj.mk "s1".toList "-AC-".toList false][0]? :=
  (reformat_frame [Seqobj.mk "s1".toList "-AC-".toList false] [0] true true none
    true false 1 ".".toList false none none false 0 (by decide)).1

theorem mapE_ok_P {α β : Type} (f : α → Except PyErr β) (P : β → Prop) :
    ∀ l : List α, (∀ a ∈ l, ∃ b, f a = Except.ok b ∧ P b) →
      ∃ out, mapE f l = Except.ok out ∧ out.length = l.length ∧ ∀ b ∈ out, P b := by
  intro l
  induction l with
  | nil => intro _; exact ⟨[], rfl, rfl, by simp⟩
  | cons a t ih =>
      intro h
      obtain ⟨b, hb, hPb⟩ := h a (List.mem_cons_self _ _)
      obtain ⟨bs, hbs, hlen, hPs⟩ := ih (fun a' ha' => h a' (List.mem_cons_of_mem _ ha'))
      refine ⟨b :: bs, ?_, by simp [hlen], ?_⟩
      · simp [mapE, hb, hbs]
      · intro x hx
        rcases List.mem_cons.mp hx with h' | h'
        · subst h'
          exact hPb
        · exact hPs x h'

theorem fmt_line_false (numw : Nat) (cnt : Option Nat) (nw : Nat) (name : Str) (ncol : Nat)
    (sstr : Str) :
    fmt_line false numw cnt nw name ncol sstr
      = Except.ok (padLeftSp nw name ++ [' '] ++ padRightSp ncol sstr) := by
  simp [fmt_line]

set_option maxHeartbeats 1000000 in
theorem page_block_ok (seqlist : List Seqobj) (vnumstrs : List Str)
    (nw numw nrow ncol : Nat) (an : Bool) (start stop first : Nat) :
    ∃ b, page_block seqlist vnumstrs nw numw nrow ncol an false start stop first = Except.ok b ∧
      (status_msg seqlist.length nrow first (min (first + nrow) seqlist.length) ≠ [] →
        b.head? = some (status_msg seqlist.length nrow first (min (first + nrow) seqlist.length))) := by
  have hruler : ∃ rl, (if an = true then
      mapE (fun s => fmt_line false numw none nw ['#'] ncol (pySlice s start stop)) vnumstrs
    else
      Except.ok [List.replicate nw ' ' ++ [' '] ++
        padRightSp ((stop - start) / 2) (pyDecRepr (start + 1)) ++
        padLeftSp ((stop - start) / 2) (pyDecRepr stop) ++ ['\n']]) = Except.ok rl := by
    cases an with
    | true =>
        obtain ⟨rl, hrl, _, _⟩ := mapE_ok_P
          (fun s => fmt_line false numw none nw ['#'] ncol (pySlice s start stop))
          (fun _ => True) vnumstrs
          (fun s _ => ⟨_, fmt_line_false numw none nw ['#'] ncol (pySlice s start stop), trivial⟩)
        exact ⟨rl, by simp [hrl]⟩
    | false =>
        refine ⟨[List.replicate nw ' ' ++ [' '] ++
          padRightSp ((stop - start) / 2) (pyDecRepr (start + 1)) ++
          padLeftSp ((stop - start) / 2) (pyDecRepr stop) ++ ['\n']], ?_⟩
        simp
  obtain ⟨rl, hrl⟩ := hruler
  have hseqs : ∃ sl, mapE (fun ka =>
      fmt_line false numw (some (first + ka.1 + 1)) nw
        (ka.2.name.take nw) ncol (pySlice ka.2.seq start stop))
      ((seqlist.drop first).take (min (first + nrow) seqlist.length - first)).enum
      = Except.ok sl := by
    obtain ⟨sl, hsl, _, _⟩ := mapE_ok_P
      (fun ka => fmt_line false numw (some (first + ka.1 + 1)) nw
        (ka.2.name.take nw) ncol (pySlice ka.2.seq start stop))
      (fun _ => True)
      ((seqlist.drop first).take (min (first + nrow) seqlist.length - first)).enum
      (fun ka _ => ⟨padLeftSp nw (ka.2.name.take nw) ++ [' '] ++
          padRightSp ncol (pySlice ka.2.seq start stop),
        fmt_line_false numw (some (first + ka.1 + 1)) nw
          (ka.2.name.take nw) ncol (pySlice ka.2.seq start stop), trivial⟩)
    exact ⟨sl, hsl⟩
  obtain ⟨sl, hsl⟩ := hseqs
  refine ⟨(if status_msg seqlist.length nrow first (min (first + nrow) seqlist.length) = []
      then ([] : List Str)
      else [status_msg seqlist.length nrow first (min (first + nrow) seqlist.length)]) ++ rl ++ sl,
    ?_, ?_⟩
  · simp only [page_block, hrl, hsl]
  · intro hne
    rw [if_neg hne]
    rfl

theorem flatten_length_uniform {β : Type} (R : Nat) :
    ∀ L : List (List β), (∀ x ∈ L, x.length = R) → L.flatten.length = R * L.length := by
  intro L
  induction L with
  | nil => intro _; simp
  | cons x t ih =>
      intro h
      simp only [List.flatten_cons, List.length_append, List.length_cons]
      rw [h x (List.mem_cons_self _ _), ih (fun y hy => h y (List.mem_cons_of_mem _ hy))]
      ring

theorem flatten_uniform2_getD {β : Type} (d : β) (dl : List β) :
    ∀ L : List (List β), (∀ x ∈ L, x.length = 2) →
      ∀ j, j < 2 * L.length → L.flatten.getD j d = (L.getD (j / 2) dl).getD (j % 2) d := by
  intro L
  induction L with
  | nil => intro _ j hj; simp at hj
  | cons x t ih =>
      intro h j hj
      have hx : x.length = 2 := h x (List.mem_cons_self _ _)
      simp only [List.flatten_cons]
      by_cases hj2 : j < 2
      · rw [List.getD_append _ _ _ _ (by omega)]
        have h1 : j / 2 = 0 := by omega
        have h2 : j % 2 = j := by omega
        rw [h1, h2]
        rfl
      · rw [List.getD_append_right _ _ _ _ (by omega)]
        have hrec := ih (fun y hy => h y (List.mem_cons_of_mem _ hy)) (j - x.length)
          (by simp only [List.length_cons] at hj; omega)
        rw [hrec, hx]
        have h1 : (j - 2) / 2 = j / 2 - 1 := by omega
        have h2 : (j - 2) % 2 = j % 2 := by omega
        have h3 : (x :: t).getD (j / 2) dl = t.getD (j / 2 - 1) dl := by
          have : j / 2 = (j / 2 - 1) + 1 := by omega
          rw [this]
          rfl
        rw [h1, h2, h3]

theorem pagify_ok_of (seqlist : List Seqobj) (vnumstrs : List Str) (nm nx nrow ncol : Nat)
    (an : Bool) (s0 : Seqobj) (rest : List Seqobj) (hC : seqlist = s0 :: rest)
    (hn : ¬ nrow = 0) (hc : ¬ ncol = 0) (L : List (List (List Str)))
    (hL : mapE (fun sb => mapE (fun first =>
        page_block seqlist vnumstrs
          (max nm (min ((seqlist.map (fun s => s.name.length)).foldl max 0) nx))
          (Nat.log 10 seqlist.length + 1) nrow ncol an false sb.1 sb.2 first)
        (xrange3 0 seqlist.length nrow)) (col_blocks s0.seq.length ncol) = Except.ok L) :
    pagify seqlist vnumstrs nm nx nrow ncol an false = Except.ok L.flatten := by
  subst hC
  simp only [pagify]
  rw [if_neg (by simp [hn, hc])]
  rw [hL]

/-- C7: with 130 records and 65 rows per block, every column block of
`pagify` consists of exactly two row blocks whose status lines read
"sequences 1 to 65 of 130" and "sequences 66 to 130 of 130"; an
alignment of 150 columns with 70 columns per block produces exactly
three column blocks, of widths 70, 70 and 10; and a status line is
nonempty exactly when the record count exceeds `nrow`. -/
theorem pagify_blocks :
    (∀ (seqlist : List Seqobj) (vnumstrs : List Str) (s0 : Seqobj) (rest : List Seqobj),
      seqlist = s0 :: rest → seqlist.length = 130 →
      (pagify seqlist vnumstrs 10 35 65 70 true false).isOk = true ∧
      ((pagify seqlist vnumstrs 10 35 65 70 true false).toOption.getD []).length
        = 2 * (col_blocks s0.seq.length 70).length ∧
      (∀ j, j < ((pagify seqlist vnumstrs 10 35 65 70 true false).toOption.getD []).length →
        (((pagify seqlist vnumstrs 10 35 65 70 true false).toOption.getD []).getD j []).head?
          = some (if j % 2 = 0 then "sequences 1 to 65 of 130".toList
                  else "sequences 66 to 130 of 130".toList))) ∧
    (∀ (seqlist : List Seqobj) (vnumstrs : List Str) (s0 : Seqobj) (rest : List Seqobj)
        (nrow : Nat),
      seqlist = s0 :: rest → s0.seq.length = 150 → 0 < nrow →
      (pagify seqlist vnumstrs 10 35 nrow 70 true false).isOk = true ∧
      ((pagify seqlist vnumstrs 10 35 nrow 70 true false).toOption.getD []).length
        = 3 * (xrange3 0 seqlist.length nrow).length) ∧
    col_blocks 150 70 = [(0, 70), (70, 140), (140, 150)] ∧
    (col_blocks 150 70).map (fun b => b.2 - b.1) = [70, 70, 10] ∧
    (∀ seqcount nrow first last : Nat,
      status_msg seqcount nrow first last ≠ [] ↔ nrow < seqcount) := by
  refine ⟨?_, ?_, by decide, by decide, ?_⟩
  · intro seqlist v s0 rest hC h130
    subst hC
    have hxr : xrange3 0 (s0 :: rest).length 65 = [0, 65] := by
      rw [h130]
      decide
    have hinner : ∀ sb : Nat × Nat, ∃ bl,
        mapE (fun first => page_block (s0 :: rest) v
            (max 10 (min (((s0 :: rest).map (fun s => s.name.length)).foldl max 0) 35))
            (Nat.log 10 (s0 :: rest).length + 1) 65 70 true false sb.1 sb.2 first)
          (xrange3 0 (s0 :: rest).length 65) = Except.ok bl ∧
        (bl.length = 2 ∧ (bl.getD 0 []).head? = some "sequences 1 to 65 of 130".toList ∧
          (bl.getD 1 []).head? = some "sequences 66 to 130 of 130".toList) := by
      intro sb
      obtain ⟨b0, hb0, hh0⟩ := page_block_ok (s0 :: rest) v
        (max 10 (min (((s0 :: rest).map (fun s => s.name.length)).foldl max 0) 35))
        (Nat.log 10 (s0 :: rest).length + 1) 65 70 true sb.1 sb.2 0
      obtain ⟨b1, hb1, hh1⟩ := page_block_ok (s0 :: rest) v
        (max 10 (min (((s0 :: rest).map (fun s => s.name.length)).foldl max 0) 35))
        (Nat.log 10 (s0 :: rest).length + 1) 65 70 true sb.1 sb.2 65
      have hm0 : status_msg (s0 :: rest).length 65 0 (min (0 + 65) (s0 :: rest).length)
          = "sequences 1 to 65 of 130".toList := by
        rw [h130]
        decide
      have hm1 : status_msg (s0 :: rest).length 65 65 (min (65 + 65) (s0 :: rest).length)
          = "sequences 66 to 130 of 130".toList := by
        rw [h130]
        decide
      rw [hm0] at hh0
      rw [hm1] at hh1
      refine ⟨[b0, b1], ?_, rfl, ?_, ?_⟩
      · rw [hxr]
        simp only [mapE]
        rw [hb0, hb1]
      · simpa using hh0 (by decide)
      · simpa using hh1 (by decide)
    obtain ⟨L, hLmap, hLlen, hLP⟩ := mapE_ok_P _ _ (col_blocks s0.seq.length 70)
      (fun sb _ => hinner sb)
    have hpag := pagify_ok_of (s0 :: rest) v 10 35 65 70 true s0 rest rfl
      (by decide) (by decide) L hLmap
    have hlen2 : ∀ x ∈ L, x.length = 2 := fun x hx => (hLP x hx).1
    refine ⟨by simp [hpag, Except.isOk, Except.toBool], ?_, ?_⟩
    · rw [hpag]
      show L.flatten.length = 2 * (col_blocks s0.seq.length 70).length
      rw [flatten_length_uniform 2 L hlen2, hLlen]
    · intro j hj
      rw [hpag] at hj ⊢
      show (L.flatten.getD j []).head? = _
      have hflat : L.flatten.length = 2 * L.length := flatten_length_uniform 2 L hlen2
      have hjlen : j < 2 * L.length := by
        have hj' : j < L.flatten.length := by
          simpa [Except.toOption] using hj
        omega
      rw [flatten_uniform2_getD [] [] L hlen2 j hjlen]
      have hmem : L.getD (j / 2) [] ∈ L := by
        have hjL : j / 2 < L.length := by omega
        rw [List.getD_eq_getElem _ _ hjL]
        exact List.getElem_mem hjL
      obtain ⟨_, hP0, hP1⟩ := hLP _ hmem
      rcases Nat.mod_two_eq_zero_or_one j with h | h
      · rw [h, if_pos rfl]
        exact hP0
      · rw [h]
        rw [if_neg (by omega)]
        exact hP1
  · intro seqlist v s0 rest nrow hC h150 hnrow
    subst hC
    have hinner : ∀ sb : Nat × Nat, ∃ bl,
        mapE (fun first => page_block (s0 :: rest) v
            (max 10 (min (((s0 :: rest).map (fun s => s.name.length)).foldl max 0) 35))
            (Nat.log 10 (s0 :: rest).length + 1) nrow 70 true false sb.1 sb.2 first)
          (xrange3 0 (s0 :: rest).length nrow) = Except.ok bl ∧
        bl.length = (xrange3 0 (s0 :: rest).length nrow).length := by
      intro sb
      obtain ⟨bl, hbl, hlen, _⟩ := mapE_ok_P _ (fun _ => True)
        (xrange3 0 (s0 :: rest).length nrow)
        (fun first _ => by
          obtain ⟨b, hb, _⟩ := page_block_ok (s0 :: rest) v
            (max 10 (min (((s0 :: rest).map (fun s => s.name.length)).foldl max 0) 35))
            (Nat.log 10 (s0 :: rest).length + 1) nrow 70 true sb.1 sb.2 first
          exact ⟨b, hb, trivial⟩)
      exact ⟨bl, hbl, hlen⟩
    obtain ⟨L, hLmap, hLlen, hLP⟩ := mapE_ok_P _ _ (col_blocks s0.seq.length 70)
      (fun sb _ => hinner sb)
    have hpag := pagify_ok_of (s0 :: rest) v 10 35 nrow 70 true s0 rest rfl
      (by omega) (by decide) L hLmap
    refine ⟨by simp [hpag, Except.isOk, Except.toBool], ?_⟩
    rw [hpag]
    show L.flatten.length = 3 * (xrange3 0 (s0 :: rest).length nrow).length
    have h3 : (col_blocks s0.seq.length 70).length = 3 := by
      rw [h150]
      decide
    rw [flatten_length_uniform (xrange3 0 (s0 :: rest).length nrow).length L hLP, hLlen, h3]
    ring
  · intro sc nr f l
    constructor
    · intro hne
      by_contra hle
      simp only [status_msg, if_neg hle] at hne
      exact hne rfl
    · intro hlt
      simp only [status_msg, if_pos hlt]
      simp

/-- Witness for C7: a concrete list of 130 one-column records paginates
successfully under the 65-row, 70-column layout. -/
theorem pagify_blocks_witness :
    (pagify (List.replicate 130 (Seqobj.mk "n".toList "A".toList false)) [] 10 35 65 70
      true false).isOk = true :=
  (pagify_blocks.1 (List.replicate 130 (Seqobj.mk "n".toList "A".toList false)) []
    (Seqobj.mk "n".toList "A".toList false)
    (List.replicate 129 (Seqobj.mk "n".toList "A".toList false))
    (by rw [show (130 : Nat) = 129 + 1 from rfl, List.replicate_succ])
    (by simp)).1

end Alnvu
